import Mathlib

/-!
Verification of the `batch` package (`group.go`): a batched concurrent task
runner.  The Go source is shallowly embedded as a state machine.

Embedding notes.
A `Group` mirrors the Go struct field by field (`cb`, `err`, the consumed
flag of the `sync.Once` `errOnce`, `hasCbErr`, the buffered channel `res`
as a FIFO list, the `uint64` counter `calls`, the channel capacity
`limitc = cap(res)`).  Two extra components make the concurrency and the
observable behaviour explicit:

* `pending` is the list of goroutines launched since the last drain (the
  outstanding count of the `sync.WaitGroup`).  A task is embedded as the
  pair it returns, `(value, error)`, errors being `Option E`.
  `wg.Wait()` is `joinAll`, which runs every pending goroutine body
  (`complete`) in an arbitrary completion order: every operation that can
  join takes a reordering function `ro`, and theorems quantify over all
  `ro` that permute their input, which captures every scheduler.
  Goroutines launched inside one submission window all finish before the
  window is drained (the source calls `wg.Wait()` first), so a per-join
  permutation is exhaustive.
* `log` is a ghost trace recording, at each callback invocation, the
  arguments `(results, err)` the callback received.  It never influences
  control flow.

The counter `calls` is a `uint64` incremented once per `Go` call; wraparound
is unreachable for any feasible number of submissions, so it is embedded as
`Nat`.
-/

namespace Batch

/-- State of `batch.Group[T]` with error type `E`, plus the ghost `pending`
and `log` components described in the header comment. -/
structure Group (T E : Type) where
  cb : List T → Option E → Option E
  err : Option E
  errOnceUsed : Bool
  hasCbErr : Bool
  res : List T
  calls : Nat
  limitc : Nat
  pending : List (T × Option E)
  log : List (List T × Option E)

variable {T E : Type}

/-- `batch.New`: clamps `limit` to at least 1 and allocates the result
channel with that capacity. -/
def New (limit : Int) (cbf : List T → Option E → Option E) : Group T E :=
  { cb := cbf
    err := none
    errOnceUsed := false
    hasCbErr := false
    res := []
    calls := 0
    limitc := if limit ≤ 0 then 1 else limit.toNat
    pending := []
    log := [] }

/-- Body of the goroutine started by `Go` (source lines 59-68), run at the
moment the task finishes: if the task failed, `errOnce.Do` records the error
only when the `sync.Once` has never fired; then the value is sent on `res`. -/
def complete (g : Group T E) (t : T × Option E) : Group T E :=
  let g1 :=
    match t.2 with
    | some e => if g.errOnceUsed then g else { g with err := some e, errOnceUsed := true }
    | none => g
  { g1 with res := g1.res ++ [t.1] }

/-- `wg.Wait()`: every pending goroutine finishes, in completion order
`order` (a permutation of `pending` chosen by the scheduler). -/
def joinAll (g : Group T E) (order : List (T × Option E)) : Group T E :=
  { order.foldl complete g with pending := [] }

/-- The non-blocking part of `Go`: increment `calls` and start the goroutine
(source lines 57-58 and the `go func` handoff). -/
def launch (g : Group T E) (t : T × Option E) : Group T E :=
  { g with calls := g.calls + 1, pending := g.pending ++ [t] }

/-- Batch boundary inside `Go` after `wg.Wait()` (source lines 48-55): drain
the channel, call the callback with the drained results and the current
`g.err`; a non-nil return latches `hasCbErr` and returns without starting
the task, a nil return clears `g.err` and the new task is started. -/
def goDrain (gj : Group T E) (t : T × Option E) : Group T E :=
  match gj.cb gj.res gj.err with
  | some e =>
      { gj with res := [], log := gj.log ++ [(gj.res, gj.err)], err := some e, hasCbErr := true }
  | none =>
      launch { gj with res := [], log := gj.log ++ [(gj.res, gj.err)], err := none } t

/-- `Group.Go` (source lines 39-69).  `ro` is the completion order the
scheduler would impose if this call crosses a batch boundary. -/
def Go (g : Group T E) (ro : List (T × Option E) → List (T × Option E))
    (t : T × Option E) : Group T E :=
  if g.hasCbErr then g
  else if 0 < g.calls ∧ g.calls % g.limitc = 0 then goDrain (joinAll g (ro g.pending)) t
  else launch g t

/-- Tail of `Group.Wait` after the drain (source lines 80-88): invoke the
callback only on a non-empty drain; a non-nil callback return is returned
directly (without latching `hasCbErr`), otherwise the stored terminal error
is returned when `hasCbErr` is set, else nil. -/
def waitDrain (gj : Group T E) : Group T E × Option E :=
  if 0 < gj.res.length then
    match gj.cb gj.res gj.err with
    | some e => ({ gj with res := [], log := gj.log ++ [(gj.res, gj.err)] }, some e)
    | none =>
        ({ gj with res := [], log := gj.log ++ [(gj.res, gj.err)] },
          if gj.hasCbErr then gj.err else none)
  else ({ gj with res := [] }, if gj.hasCbErr then gj.err else none)

/-- `Group.Wait` (source lines 74-89): join all leftover goroutines, drain,
and report.  Returns the new state (Go's `Wait` mutates the group through
the pointer receiver) together with the returned error. -/
def Wait (g : Group T E) (ro : List (T × Option E) → List (T × Option E)) :
    Group T E × Option E :=
  waitDrain (joinAll g (ro g.pending))

/-- A sequence of `Go` calls; `sched i` is the completion order the
scheduler imposes at the join (if any) of the `i`-th call. -/
def runGos (sched : Nat → List (T × Option E) → List (T × Option E)) :
    Group T E → List (T × Option E) → Nat → Group T E
  | g, [], _ => g
  | g, t :: ts, i => runGos sched (Go g (sched i) t) ts (i + 1)

/-- A reordering function is a scheduler choice when it permutes its input. -/
def ValidRo (ro : List (T × Option E) → List (T × Option E)) : Prop :=
  ∀ xs, List.Perm (ro xs) xs

/-- A valid schedule supplies a permutation at every join point. -/
def ValidSched (sched : Nat → List (T × Option E) → List (T × Option E)) : Prop :=
  ∀ i, ValidRo (sched i)

/-- Size of the current submission window after `k` calls to `Go`: the
number of goroutines launched since the last batch boundary was drained. -/
def Wlen (L k : Nat) : Nat := if k = 0 then 0 else (k - 1) % L + 1

/-- Number of callback invocations performed inside `Go` during the first
`k` calls (one per crossed batch boundary). -/
def Cnt (L k : Nat) : Nat := if k = 0 then 0 else (k - 1) / L
/-- States reachable from `New` by a sequence of `Go` calls under valid
scheduler choices.  This is the legal usage window before `Wait`. -/
inductive GoReach (limit : Int) (cbf : List T → Option E → Option E) : Group T E → Prop
  | init : GoReach limit cbf (New limit cbf)
  | step {g ro t} : GoReach limit cbf g → ValidRo ro → GoReach limit cbf (Go g ro t)

/-- Structural invariant of reachable states: the channel capacity is
positive, the channel is empty between operations (it is drained at every
boundary), the submission window holds exactly `Wlen limitc calls`
outstanding goroutines while the group is live, and a terminal group has no
outstanding goroutine and a stored non-nil error. -/
def GInv (g : Group T E) : Prop :=
  0 < g.limitc ∧ g.res = [] ∧
  (g.hasCbErr = false → g.pending.length = Wlen g.limitc g.calls) ∧
  (g.hasCbErr = true → g.pending = [] ∧ g.err.isSome = true)

/-- Full description of the group state after `k` submissions when every
task so far succeeded and every callback invocation returned nil. -/
def CleanState (L : Nat) (cbf : List T → Option E → Option E) (k : Nat)
    (g : Group T E) : Prop :=
  g.cb = cbf ∧ g.limitc = L ∧ g.calls = k ∧ g.hasCbErr = false ∧ g.err = none ∧
  g.errOnceUsed = false ∧ g.res = [] ∧ (∀ t ∈ g.pending, t.2 = none) ∧
  g.pending.length = Wlen L k ∧
  g.log.map (fun p => p.1.length) = List.replicate (Cnt L k) L

/-- Callback of the concrete scenario shared by the spec and the test
`TestBatchGroup_several_errors`: swallow the error reported with the batch
that contains the value 0 (return nil), otherwise return the received error
unchanged (escalate). -/
def swallowFirstCb : List Nat → Option Nat → Option Nat :=
  fun r e => if 0 ∈ r then none else e

/-- Tasks of the concrete scenario: five tasks, the ones at index 0 and 2
fail (with distinct error values 10 and 12). -/
def c1Tasks : List (Nat × Option Nat) :=
  [(0, some 10), (1, none), (2, some 12), (3, none), (4, none)]

/-- Full run of the scenario with `limit = 2`:
five `Go` calls followed by `Wait`, under the in-order scheduler. -/
def c1Run : Group Nat Nat × Option Nat :=
  Wait (runGos (fun _ => id) (New 2 swallowFirstCb) c1Tasks 0) id

/-- A callback that always escalates with a fresh error value. -/
def alwaysErrCb : List Nat → Option Nat → Option Nat := fun _ _ => some 99

/-- One successful task, then a first `Wait` whose callback invocation
returns an error. -/
def c6Run1 : Group Nat Nat × Option Nat :=
  Wait (runGos (fun _ => id) (New 3 alwaysErrCb) [(7, none)] 0) id

/-- A second `Wait` on the state left by the first one. -/
def c6Run2 : Group Nat Nat × Option Nat := Wait c6Run1.1 id

theorem wlen_le {L : Nat} (hL : 0 < L) (k : Nat) : Wlen L k ≤ L := by
  unfold Wlen
  split
  · omega
  · have := Nat.mod_lt (k - 1) hL
    omega

theorem pred_mod_div_of_boundary {L k : Nat} (hL : 0 < L) (hk : 0 < k) (h : k % L = 0) :
    (k - 1) % L = L - 1 ∧ (k - 1) / L = k / L - 1 ∧ 0 < k / L := by
  obtain ⟨q, hq⟩ := Nat.dvd_of_mod_eq_zero h
  have hq0 : 0 < q := by
    rcases Nat.eq_zero_or_pos q with h0 | h0
    · subst h0
      simp at hq
      omega
    · exact h0
  obtain ⟨q1, rfl⟩ : ∃ q1, q = q1 + 1 := ⟨q - 1, by omega⟩
  have hk1 : k = L * q1 + L := by
    have : L * (q1 + 1) = L * q1 + L := by ring
    omega
  have hsub : k - 1 = L * q1 + (L - 1) := by omega
  have hmod : (k - 1) % L = L - 1 := by
    rw [hsub, Nat.mul_add_mod]
    exact Nat.mod_eq_of_lt (by omega)
  have hdiv1 : (k - 1) / L = q1 := by
    rw [hsub, Nat.mul_add_div hL]
    simp [Nat.div_eq_of_lt (Nat.sub_lt hL Nat.one_pos)]
  have hdiv2 : k / L = q1 + 1 := by
    rw [hq]
    exact Nat.mul_div_cancel_left _ hL
  exact ⟨hmod, by omega, by omega⟩

theorem pred_mod_div_of_mid {L k : Nat} (hL : 0 < L) (hk : 0 < k) (h : k % L ≠ 0) :
    (k - 1) % L + 1 = k % L ∧ (k - 1) / L = k / L := by
  have hdm : L * (k / L) + k % L = k := Nat.div_add_mod k L
  have hrlt : k % L < L := Nat.mod_lt k hL
  have hsub : k - 1 = L * (k / L) + (k % L - 1) := by omega
  have hmod : (k - 1) % L = k % L - 1 := by
    rw [hsub, Nat.mul_add_mod]
    exact Nat.mod_eq_of_lt (by omega)
  have hdiv : (k - 1) / L = k / L := by
    rw [hsub, Nat.mul_add_div hL]
    simp [Nat.div_eq_of_lt (show k % L - 1 < L by omega)]
  exact ⟨by omega, hdiv⟩

theorem wlen_boundary {L k : Nat} (hL : 0 < L) (hk : 0 < k) (h : k % L = 0) :
    Wlen L k = L := by
  unfold Wlen
  rw [if_neg (by omega)]
  have := (pred_mod_div_of_boundary hL hk h).1
  omega

theorem wlen_succ_boundary {L k : Nat} (hL : 0 < L) (hk : 0 < k) (h : k % L = 0) :
    Wlen L (k + 1) = 1 := by
  unfold Wlen
  rw [if_neg (by omega), Nat.add_sub_cancel, h]

theorem wlen_succ_mid {L k : Nat} (hL : 0 < L) (h : ¬(0 < k ∧ k % L = 0)) :
    Wlen L (k + 1) = Wlen L k + 1 := by
  unfold Wlen
  rw [if_neg (by omega), Nat.add_sub_cancel]
  rcases Nat.eq_zero_or_pos k with h0 | h0
  · subst h0
    simp
  · have hne : k % L ≠ 0 := by
      intro hc
      exact h ⟨h0, hc⟩
    rw [if_neg (by omega)]
    have := (pred_mod_div_of_mid hL h0 hne).1
    omega

theorem cnt_succ_boundary {L k : Nat} (hL : 0 < L) (hk : 0 < k) (h : k % L = 0) :
    Cnt L (k + 1) = Cnt L k + 1 := by
  unfold Cnt
  rw [if_neg (by omega), if_neg (by omega), Nat.add_sub_cancel]
  obtain ⟨_, hdiv, hpos⟩ := pred_mod_div_of_boundary hL hk h
  omega

theorem cnt_succ_mid {L k : Nat} (hL : 0 < L) (h : ¬(0 < k ∧ k % L = 0)) :
    Cnt L (k + 1) = Cnt L k := by
  unfold Cnt
  rw [if_neg (by omega), Nat.add_sub_cancel]
  rcases Nat.eq_zero_or_pos k with h0 | h0
  · subst h0
    simp [Nat.div_eq_of_lt hL]
  · have hne : k % L ≠ 0 := by
      intro hc
      exact h ⟨h0, hc⟩
    rw [if_neg (by omega)]
    exact ((pred_mod_div_of_mid hL h0 hne).2).symm

theorem ceil_div {L n : Nat} (hL : 0 < L) (hn : 0 < n) :
    (n + L - 1) / L = n / L + (if n % L = 0 then 0 else 1) := by
  have hdm : L * (n / L) + n % L = n := Nat.div_add_mod n L
  have hrlt : n % L < L := Nat.mod_lt n hL
  by_cases h : n % L = 0
  · rw [if_pos h]
    have hsub : n + L - 1 = L * (n / L) + (L - 1) := by omega
    rw [hsub, Nat.mul_add_div hL]
    simp [Nat.div_eq_of_lt (Nat.sub_lt hL Nat.one_pos)]
  · rw [if_neg h]
    have hmul : L * (n / L + 1) = L * (n / L) + L := by ring
    have hsub : n + L - 1 = L * (n / L + 1) + (n % L - 1) := by omega
    rw [hsub, Nat.mul_add_div hL]
    simp [Nat.div_eq_of_lt (show n % L - 1 < L by omega)]

@[simp] theorem complete_cb (g : Group T E) (t) : (complete g t).cb = g.cb := by
  rcases t with ⟨v, e⟩
  cases e
  · rfl
  · unfold complete
    by_cases h : g.errOnceUsed = true <;> simp [h]

@[simp] theorem complete_calls (g : Group T E) (t) : (complete g t).calls = g.calls := by
  rcases t with ⟨v, e⟩
  cases e
  · rfl
  · unfold complete
    by_cases h : g.errOnceUsed = true <;> simp [h]

@[simp] theorem complete_limitc (g : Group T E) (t) : (complete g t).limitc = g.limitc := by
  rcases t with ⟨v, e⟩
  cases e
  · rfl
  · unfold complete
    by_cases h : g.errOnceUsed = true <;> simp [h]

@[simp] theorem complete_pending (g : Group T E) (t) : (complete g t).pending = g.pending := by
  rcases t with ⟨v, e⟩
  cases e
  · rfl
  · unfold complete
    by_cases h : g.errOnceUsed = true <;> simp [h]

@[simp] theorem complete_hasCbErr (g : Group T E) (t) :
    (complete g t).hasCbErr = g.hasCbErr := by
  rcases t with ⟨v, e⟩
  cases e
  · rfl
  · unfold complete
    by_cases h : g.errOnceUsed = true <;> simp [h]

@[simp] theorem complete_log (g : Group T E) (t) : (complete g t).log = g.log := by
  rcases t with ⟨v, e⟩
  cases e
  · rfl
  · unfold complete
    by_cases h : g.errOnceUsed = true <;> simp [h]

@[simp] theorem complete_res (g : Group T E) (t) : (complete g t).res = g.res ++ [t.1] := by
  rcases t with ⟨v, e⟩
  cases e
  · rfl
  · unfold complete
    by_cases h : g.errOnceUsed = true <;> simp [h]

theorem complete_err_none (g : Group T E) {t} (h : t.2 = none) :
    (complete g t).err = g.err := by
  rcases t with ⟨v, e⟩
  simp only at h
  subst h
  rfl

theorem complete_errOnce_none (g : Group T E) {t} (h : t.2 = none) :
    (complete g t).errOnceUsed = g.errOnceUsed := by
  rcases t with ⟨v, e⟩
  simp only at h
  subst h
  rfl

theorem foldl_complete_cb (order : List (T × Option E)) (g : Group T E) :
    (order.foldl complete g).cb = g.cb := by
  induction order generalizing g with
  | nil => rfl
  | cons t ts ih => simp [List.foldl_cons, ih]

theorem foldl_complete_calls (order : List (T × Option E)) (g : Group T E) :
    (order.foldl complete g).calls = g.calls := by
  induction order generalizing g with
  | nil => rfl
  | cons t ts ih => simp [List.foldl_cons, ih]

theorem foldl_complete_limitc (order : List (T × Option E)) (g : Group T E) :
    (order.foldl complete g).limitc = g.limitc := by
  induction order generalizing g with
  | nil => rfl
  | cons t ts ih => simp [List.foldl_cons, ih]

theorem foldl_complete_pending (order : List (T × Option E)) (g : Group T E) :
    (order.foldl complete g).pending = g.pending := by
  induction order generalizing g with
  | nil => rfl
  | cons t ts ih => simp [List.foldl_cons, ih]

theorem foldl_complete_hasCbErr (order : List (T × Option E)) (g : Group T E) :
    (order.foldl complete g).hasCbErr = g.hasCbErr := by
  induction order generalizing g with
  | nil => rfl
  | cons t ts ih => simp [List.foldl_cons, ih]

theorem foldl_complete_log (order : List (T × Option E)) (g : Group T E) :
    (order.foldl complete g).log = g.log := by
  induction order generalizing g with
  | nil => rfl
  | cons t ts ih => simp [List.foldl_cons, ih]

theorem foldl_complete_res (order : List (T × Option E)) (g : Group T E) :
    (order.foldl complete g).res = g.res ++ order.map Prod.fst := by
  induction order generalizing g with
  | nil => simp
  | cons t ts ih => simp [List.foldl_cons, ih, List.append_assoc]

theorem foldl_complete_err_none {order : List (T × Option E)} (g : Group T E)
    (h : ∀ t ∈ order, t.2 = none) : (order.foldl complete g).err = g.err := by
  induction order generalizing g with
  | nil => rfl
  | cons t ts ih =>
      rw [List.foldl_cons, ih _ (fun x hx => h x (List.mem_cons_of_mem _ hx)),
        complete_err_none g (h t (List.mem_cons_self _ _))]

theorem foldl_complete_errOnce_none {order : List (T × Option E)} (g : Group T E)
    (h : ∀ t ∈ order, t.2 = none) : (order.foldl complete g).errOnceUsed = g.errOnceUsed := by
  induction order generalizing g with
  | nil => rfl
  | cons t ts ih =>
      rw [List.foldl_cons, ih _ (fun x hx => h x (List.mem_cons_of_mem _ hx)),
        complete_errOnce_none g (h t (List.mem_cons_self _ _))]

@[simp] theorem joinAll_pending (g : Group T E) (order) : (joinAll g order).pending = [] := rfl

@[simp] theorem joinAll_cb (g : Group T E) (order) : (joinAll g order).cb = g.cb :=
  foldl_complete_cb order g

@[simp] theorem joinAll_calls (g : Group T E) (order) : (joinAll g order).calls = g.calls :=
  foldl_complete_calls order g

@[simp] theorem joinAll_limitc (g : Group T E) (order) : (joinAll g order).limitc = g.limitc :=
  foldl_complete_limitc order g

@[simp] theorem joinAll_hasCbErr (g : Group T E) (order) :
    (joinAll g order).hasCbErr = g.hasCbErr :=
  foldl_complete_hasCbErr order g

@[simp] theorem joinAll_log (g : Group T E) (order) : (joinAll g order).log = g.log :=
  foldl_complete_log order g

@[simp] theorem joinAll_res (g : Group T E) (order) :
    (joinAll g order).res = g.res ++ order.map Prod.fst :=
  foldl_complete_res order g

theorem joinAll_err_none {order : List (T × Option E)} (g : Group T E)
    (h : ∀ t ∈ order, t.2 = none) : (joinAll g order).err = g.err :=
  foldl_complete_err_none g h

theorem joinAll_errOnce_none {order : List (T × Option E)} (g : Group T E)
    (h : ∀ t ∈ order, t.2 = none) : (joinAll g order).errOnceUsed = g.errOnceUsed :=
  foldl_complete_errOnce_none g h

@[simp] theorem launch_limitc (g : Group T E) (t) : (launch g t).limitc = g.limitc := rfl

@[simp] theorem launch_res (g : Group T E) (t) : (launch g t).res = g.res := rfl

@[simp] theorem launch_calls (g : Group T E) (t) : (launch g t).calls = g.calls + 1 := rfl

@[simp] theorem launch_pending (g : Group T E) (t) :
    (launch g t).pending = g.pending ++ [t] := rfl

@[simp] theorem launch_hasCbErr (g : Group T E) (t) : (launch g t).hasCbErr = g.hasCbErr := rfl

@[simp] theorem launch_err (g : Group T E) (t) : (launch g t).err = g.err := rfl

@[simp] theorem launch_cb (g : Group T E) (t) : (launch g t).cb = g.cb := rfl

@[simp] theorem launch_log (g : Group T E) (t) : (launch g t).log = g.log := rfl

theorem ginv_new (limit : Int) (cbf : List T → Option E → Option E) :
    GInv (New limit cbf) := by
  refine ⟨?_, rfl, ?_, ?_⟩
  · simp only [New]
    split <;> omega
  · intro _
    rfl
  · intro h
    simp [New] at h

theorem ginv_go {g : Group T E} {ro t} (hg : GInv g) (hro : ValidRo ro) :
    GInv (Go g ro t) := by
  obtain ⟨hL, hres, hlive, hterm⟩ := hg
  by_cases hcb : g.hasCbErr = true
  · rw [Go, if_pos hcb]
    exact ⟨hL, hres, hlive, hterm⟩
  · have hcb' : g.hasCbErr = false := by
      cases h : g.hasCbErr
      · rfl
      · exact absurd h hcb
    rw [Go, if_neg hcb]
    have hplen : g.pending.length = Wlen g.limitc g.calls := hlive hcb'
    by_cases hb : 0 < g.calls ∧ g.calls % g.limitc = 0
    · rw [if_pos hb]
      set gj := joinAll g (ro g.pending) with hgj
      have hjL : gj.limitc = g.limitc := by
        rw [hgj]
        exact joinAll_limitc g _
      have hjc : gj.calls = g.calls := by
        rw [hgj]
        exact joinAll_calls g _
      have hjcb : gj.hasCbErr = false := by
        rw [hgj, joinAll_hasCbErr]
        exact hcb'
      have hjp : gj.pending = [] := by
        rw [hgj]
        exact joinAll_pending g _
      cases hcv : gj.cb gj.res gj.err with
      | none =>
          simp only [goDrain, hcv]
          refine ⟨?_, rfl, ?_, ?_⟩
          · show 0 < gj.limitc
            rw [hjL]
            exact hL
          · intro _
            show (gj.pending ++ [t]).length = Wlen gj.limitc (gj.calls + 1)
            rw [hjp, hjL, hjc, wlen_succ_boundary hL hb.1 hb.2]
            rfl
          · intro hfalse
            have : gj.hasCbErr = true := hfalse
            rw [hjcb] at this
            exact absurd this (by simp)
      | some e =>
          simp only [goDrain, hcv]
          refine ⟨?_, rfl, ?_, ?_⟩
          · show 0 < gj.limitc
            rw [hjL]
            exact hL
          · intro hfalse
            exact absurd hfalse (by simp)
          · intro _
            exact ⟨hjp, rfl⟩
    · rw [if_neg hb]
      refine ⟨hL, hres, ?_, ?_⟩
      · intro _
        show (g.pending ++ [t]).length = Wlen g.limitc (g.calls + 1)
        rw [List.length_append, hplen, wlen_succ_mid hL hb]
        rfl
      · intro hfalse
        exact absurd hfalse hcb

theorem ginv_reach {limit : Int} {cbf : List T → Option E → Option E} {g : Group T E}
    (hg : GoReach limit cbf g) : GInv g := by
  induction hg with
  | init => exact ginv_new limit cbf
  | step _ hro ih => exact ginv_go ih hro

theorem clean_new (limit : Int) (cbf : List T → Option E → Option E) :
    CleanState (New limit cbf : Group T E).limitc cbf 0 (New limit cbf) := by
  refine ⟨rfl, rfl, rfl, rfl, rfl, rfl, rfl, ?_, ?_, ?_⟩
  · intro t ht
    simp [New] at ht
  · simp [New, Wlen]
  · simp [New, Cnt]

theorem clean_go {L : Nat} {cbf : List T → Option E → Option E} {k : Nat} {g : Group T E}
    {ro t} (hL : 0 < L) (hcb : ∀ r e, cbf r e = none) (hg : CleanState L cbf k g)
    (hro : ValidRo ro) (ht : t.2 = none) : CleanState L cbf (k + 1) (Go g ro t) := by
  obtain ⟨hgcb, hglim, hgcalls, hgerrflag, hgerr, hgonce, hgres, hgpend, hgplen, hglog⟩ := hg
  rw [Go, if_neg (by rw [hgerrflag]; simp)]
  by_cases hb : 0 < g.calls ∧ g.calls % g.limitc = 0
  · rw [if_pos hb]
    have hbk : 0 < k ∧ k % L = 0 := by
      rw [hgcalls, hglim] at hb
      exact hb
    have hnone : ∀ x ∈ ro g.pending, x.2 = none := by
      intro x hx
      exact hgpend x ((hro g.pending).mem_iff.mp hx)
    set gj := joinAll g (ro g.pending) with hgj
    have hjcb : gj.cb = cbf := by rw [hgj, joinAll_cb, hgcb]
    have hjlim : gj.limitc = L := by rw [hgj, joinAll_limitc, hglim]
    have hjcalls : gj.calls = k := by rw [hgj, joinAll_calls, hgcalls]
    have hjflag : gj.hasCbErr = false := by rw [hgj, joinAll_hasCbErr, hgerrflag]
    have hjerr : gj.err = none := by rw [hgj, joinAll_err_none g hnone, hgerr]
    have hjonce : gj.errOnceUsed = false := by rw [hgj, joinAll_errOnce_none g hnone, hgonce]
    have hjlog : gj.log = g.log := by rw [hgj, joinAll_log]
    have hjres : gj.res = (ro g.pending).map Prod.fst := by
      rw [hgj, joinAll_res, hgres, List.nil_append]
    have hjreslen : gj.res.length = L := by
      rw [hjres, List.length_map, (hro g.pending).length_eq, hgplen,
        wlen_boundary hL hbk.1 hbk.2]
    have hcv : gj.cb gj.res gj.err = none := by rw [hjcb]; exact hcb _ _
    simp only [goDrain, hcv]
    refine ⟨?_, ?_, ?_, ?_, ?_, ?_, rfl, ?_, ?_, ?_⟩
    · show gj.cb = cbf
      exact hjcb
    · show gj.limitc = L
      exact hjlim
    · show gj.calls + 1 = k + 1
      rw [hjcalls]
    · show gj.hasCbErr = false
      exact hjflag
    · rfl
    · show gj.errOnceUsed = false
      exact hjonce
    · show ∀ x ∈ (joinAll g (ro g.pending)).pending ++ [t], x.2 = none
      intro x hx
      rcases List.mem_append.mp hx with hx1 | hx1
      · rw [joinAll_pending] at hx1
        simp at hx1
      · rw [List.mem_singleton.mp hx1]
        exact ht
    · show ((joinAll g (ro g.pending)).pending ++ [t]).length = Wlen L (k + 1)
      rw [joinAll_pending, wlen_succ_boundary hL hbk.1 hbk.2]
      rfl
    · show ((gj.log ++ [(gj.res, gj.err)]).map fun p => p.1.length) =
        List.replicate (Cnt L (k + 1)) L
      rw [List.map_append, hjlog, hglog, cnt_succ_boundary hL hbk.1 hbk.2,
        List.replicate_succ' (Cnt L k) L]
      simp [hjreslen]
  · rw [if_neg hb]
    have hbk : ¬(0 < k ∧ k % L = 0) := by
      rw [hgcalls, hglim] at hb
      exact hb
    refine ⟨hgcb, hglim, ?_, hgerrflag, hgerr, hgonce, hgres, ?_, ?_, ?_⟩
    · show g.calls + 1 = k + 1
      rw [hgcalls]
    · show ∀ x ∈ g.pending ++ [t], x.2 = none
      intro x hx
      rcases List.mem_append.mp hx with hx1 | hx1
      · exact hgpend x hx1
      · rw [List.mem_singleton.mp hx1]
        exact ht
    · show (g.pending ++ [t]).length = Wlen L (k + 1)
      rw [List.length_append, hgplen, wlen_succ_mid hL hbk]
      rfl
    · show (g.log.map fun p => p.1.length) = List.replicate (Cnt L (k + 1)) L
      rw [hglog, cnt_succ_mid hL hbk]

theorem clean_runGos {L : Nat} {cbf : List T → Option E → Option E} {sched} {ts : List (T × Option E)}
    (hL : 0 < L) (hcb : ∀ r e, cbf r e = none) (hts : ∀ t ∈ ts, t.2 = none)
    (hsched : ValidSched sched) :
    ∀ {k : Nat} {g : Group T E} (_ : CleanState L cbf k g) (i : Nat),
      CleanState L cbf (k + ts.length) (runGos sched g ts i) := by
  induction ts with
  | nil =>
      intro k g hg i
      simpa using hg
  | cons t ts ih =>
      intro k g hg i
      have ht : t.2 = none := hts t (List.mem_cons_self _ _)
      have hts' : ∀ x ∈ ts, x.2 = none := fun x hx => hts x (List.mem_cons_of_mem _ hx)
      have hstep := clean_go hL hcb hg (hsched i) ht
      have := ih hts' hstep (i + 1)
      rw [runGos]
      have harith : k + 1 + ts.length = k + (ts.length + 1) := by omega
      rw [harith] at this
      simpa using this

theorem clean_wait {L : Nat} {cbf : List T → Option E → Option E} {n : Nat} {g : Group T E}
    {ro} (hL : 0 < L) (hn : 0 < n) (hcb : ∀ r e, cbf r e = none)
    (hg : CleanState L cbf n g) (hro : ValidRo ro) :
    (Wait g ro).2 = none ∧
    ((Wait g ro).1.log.map fun p => p.1.length) =
      List.replicate (Cnt L n) L ++ [Wlen L n] := by
  obtain ⟨hgcb, hglim, hgcalls, hgerrflag, hgerr, hgonce, hgres, hgpend, hgplen, hglog⟩ := hg
  have hnone : ∀ x ∈ ro g.pending, x.2 = none := by
    intro x hx
    exact hgpend x ((hro g.pending).mem_iff.mp hx)
  set gj := joinAll g (ro g.pending) with hgj
  have hjcb : gj.cb = cbf := by rw [hgj, joinAll_cb, hgcb]
  have hjflag : gj.hasCbErr = false := by rw [hgj, joinAll_hasCbErr, hgerrflag]
  have hjlog : gj.log = g.log := by rw [hgj, joinAll_log]
  have hjres : gj.res = (ro g.pending).map Prod.fst := by
    rw [hgj, joinAll_res, hgres, List.nil_append]
  have hjreslen : gj.res.length = Wlen L n := by
    rw [hjres, List.length_map, (hro g.pending).length_eq, hgplen]
  have hpos : 0 < gj.res.length := by
    rw [hjreslen]
    unfold Wlen
    rw [if_neg (by omega)]
    omega
  have hcv : gj.cb gj.res gj.err = none := by rw [hjcb]; exact hcb _ _
  rw [Wait, ← hgj, waitDrain, if_pos hpos]
  simp only [hcv]
  constructor
  · show (if gj.hasCbErr then gj.err else none) = none
    rw [hjflag]
    simp
  · show ((gj.log ++ [(gj.res, gj.err)]).map fun p => p.1.length) =
      List.replicate (Cnt L n) L ++ [Wlen L n]
    rw [List.map_append, hjlog, hglog]
    simp [hjreslen]

theorem clamp_limitc_of_pos {limit : Nat} (hlim : 1 ≤ limit)
    (cbf : List T → Option E → Option E) :
    (New (limit : Int) cbf : Group T E).limitc = limit := by
  show (if (limit : Int) ≤ 0 then 1 else (limit : Int).toNat) = limit
  rw [if_neg (by omega)]
  omega

/-- C3: with `limit ≥ 1` and `n ≥ 1` submissions whose tasks all succeed and
whose callback always returns nil, the callback runs `ceil(n / limit)` times,
every invocation gets a non-empty result sequence, the first `n / limit`
invocations get exactly `limit` results, the last gets `n % limit` results
(`limit` when `limit` divides `n`), and `Wait` returns nil. -/
theorem c3_success_batching (limit : Nat) (hlim : 1 ≤ limit)
    (cbf : List T → Option E → Option E) (hcb : ∀ r e, cbf r e = none)
    (ts : List (T × Option E)) (hts : ∀ t ∈ ts, t.2 = none) (hn : 1 ≤ ts.length)
    (sched) (hsched : ValidSched sched) (roW) (hroW : ValidRo roW) :
    (Wait (runGos sched (New (limit : Int) cbf) ts 0) roW).2 = none ∧
    (Wait (runGos sched (New (limit : Int) cbf) ts 0) roW).1.log.length =
      (ts.length + limit - 1) / limit ∧
    (∀ p ∈ (Wait (runGos sched (New (limit : Int) cbf) ts 0) roW).1.log, 0 < p.1.length) ∧
    ((Wait (runGos sched (New (limit : Int) cbf) ts 0) roW).1.log.map fun p => p.1.length) =
      List.replicate (ts.length / limit) limit ++
        (if ts.length % limit = 0 then [] else [ts.length % limit]) := by
  have hL : 0 < limit := hlim
  have hstart : CleanState limit cbf 0 (New (limit : Int) cbf) := by
    have := clean_new (limit : Int) cbf
    rwa [clamp_limitc_of_pos hlim cbf] at this
  have hrun := clean_runGos hL hcb hts hsched hstart 0
  rw [Nat.zero_add] at hrun
  have hwait := clean_wait hL hn hcb hrun hroW
  set n := ts.length with hnn
  have hmap := hwait.2
  have hkey :
      List.replicate (Cnt limit n) limit ++ [Wlen limit n] =
        List.replicate (n / limit) limit ++
          (if n % limit = 0 then [] else [n % limit]) := by
    by_cases hdvd : n % limit = 0
    · rw [if_pos hdvd]
      obtain ⟨hm, hd, hp⟩ := pred_mod_div_of_boundary hL hn hdvd
      have hcnt : Cnt limit n = n / limit - 1 := by
        unfold Cnt
        rw [if_neg (by omega)]
        exact hd
      have hwl : Wlen limit n = limit := wlen_boundary hL hn hdvd
      rw [hcnt, hwl, List.append_nil]
      have hq : n / limit = (n / limit - 1) + 1 := by omega
      nth_rewrite 2 [hq]
      rw [List.replicate_succ' (n / limit - 1) limit]
    · rw [if_neg hdvd]
      obtain ⟨hm, hd⟩ := pred_mod_div_of_mid hL hn hdvd
      have hcnt : Cnt limit n = n / limit := by
        unfold Cnt
        rw [if_neg (by omega)]
        exact hd
      have hwl : Wlen limit n = n % limit := by
        unfold Wlen
        rw [if_neg (by omega)]
        exact hm
      rw [hcnt, hwl]
  have hlen :
      (Wait (runGos sched (New (limit : Int) cbf) ts 0) roW).1.log.length =
        (n + limit - 1) / limit := by
    have h1 : (Wait (runGos sched (New (limit : Int) cbf) ts 0) roW).1.log.length =
        ((Wait (runGos sched (New (limit : Int) cbf) ts 0) roW).1.log.map
          fun p => p.1.length).length := by
      rw [List.length_map]
    rw [h1, hmap, hkey, ceil_div hL hn, List.length_append, List.length_replicate]
    by_cases hdvd : n % limit = 0
    · rw [if_pos hdvd, if_pos hdvd]
      simp
    · rw [if_neg hdvd, if_neg hdvd]
      simp
  refine ⟨hwait.1, hlen, ?_, by rw [hmap, hkey]⟩
  intro p hp
  have hmem : p.1.length ∈
      ((Wait (runGos sched (New (limit : Int) cbf) ts 0) roW).1.log.map
        fun q => q.1.length) :=
    List.mem_map_of_mem _ hp
  rw [hmap, hkey] at hmem
  rcases List.mem_append.mp hmem with h1 | h1
  · have := List.eq_of_mem_replicate h1
    omega
  · by_cases hdvd : n % limit = 0
    · rw [if_pos hdvd] at h1
      simp at h1
    · rw [if_neg hdvd] at h1
      have := List.mem_singleton.mp h1
      omega

theorem go_noop {g : Group T E} {ro t} (h : g.hasCbErr = true) : Go g ro t = g := by
  rw [Go, if_pos (by rw [h])]

theorem runGos_noop {g : Group T E} {sched ts i} (h : g.hasCbErr = true) :
    runGos sched g ts i = g := by
  induction ts generalizing i with
  | nil => rfl
  | cons t ts ih => rw [runGos, go_noop h, ih]

theorem wait_fst_pending (g : Group T E) (ro) : (Wait g ro).1.pending = [] := by
  rw [Wait]
  set gj := joinAll g (ro g.pending) with hgj
  have hjp : gj.pending = [] := by
    rw [hgj]
    exact joinAll_pending g _
  rw [waitDrain]
  by_cases hlen : 0 < gj.res.length
  · rw [if_pos hlen]
    cases hcv : gj.cb gj.res gj.err <;> simp only [hcv] <;> exact hjp
  · rw [if_neg hlen]
    exact hjp

theorem wait_fst_res (g : Group T E) (ro) : (Wait g ro).1.res = [] := by
  rw [Wait]
  set gj := joinAll g (ro g.pending) with hgj
  rw [waitDrain]
  by_cases hlen : 0 < gj.res.length
  · rw [if_pos hlen]
    cases hcv : gj.cb gj.res gj.err <;> simp only [hcv] <;> rfl
  · rw [if_neg hlen]

theorem wait_fst_hasCbErr (g : Group T E) (ro) : (Wait g ro).1.hasCbErr = g.hasCbErr := by
  rw [Wait]
  set gj := joinAll g (ro g.pending) with hgj
  have hjf : gj.hasCbErr = g.hasCbErr := by
    rw [hgj]
    exact joinAll_hasCbErr g _
  rw [waitDrain]
  by_cases hlen : 0 < gj.res.length
  · rw [if_pos hlen]
    cases hcv : gj.cb gj.res gj.err <;> simp only [hcv] <;> exact hjf
  · rw [if_neg hlen]
    exact hjf

theorem wait_fst_err (g : Group T E) (ro) :
    (Wait g ro).1.err = (joinAll g (ro g.pending)).err := by
  rw [Wait]
  set gj := joinAll g (ro g.pending) with hgj
  rw [waitDrain]
  by_cases hlen : 0 < gj.res.length
  · rw [if_pos hlen]
    cases hcv : gj.cb gj.res gj.err <;> simp only [hcv] <;> rfl
  · rw [if_neg hlen]

theorem wait_fst_log_of_empty {g : Group T E} {ro} (hp : g.pending = [])
    (hres : g.res = []) (hro : ValidRo ro) : (Wait g ro).1.log = g.log := by
  have h0 : ro g.pending = [] := by
    rw [hp]
    exact List.Perm.eq_nil (by simpa [hp] using hro g.pending)
  rw [Wait, h0]
  have hres2 : (joinAll g []).res = [] := by
    rw [joinAll_res, hres]
    rfl
  rw [waitDrain, if_neg (by rw [hres2]; simp)]
  exact joinAll_log g _

theorem wait_snd_of_empty {g : Group T E} {ro} (hp : g.pending = [])
    (hres : g.res = []) (hro : ValidRo ro) :
    (Wait g ro).2 = (if g.hasCbErr then g.err else none) := by
  have h0 : ro g.pending = [] := by
    rw [hp]
    exact List.Perm.eq_nil (by simpa [hp] using hro g.pending)
  rw [Wait, h0]
  have hres2 : (joinAll g []).res = [] := by
    rw [joinAll_res, hres]
    rfl
  rw [waitDrain, if_neg (by rw [hres2]; simp)]
  have h1 : (joinAll g []).hasCbErr = g.hasCbErr := joinAll_hasCbErr g _
  have h2 : (joinAll g []).err = g.err := by
    rw [joinAll_err_none g (by intro x hx; simp at hx)]
  rw [h1, h2]

/-- C8: when `Go` was never called, `Wait` returns nil, never invokes the
callback, and leaves the freshly constructed group state unchanged. -/
theorem c8_wait_without_go (limit : Int) (cbf : List T → Option E → Option E)
    (ro) (hro : ValidRo ro) :
    Wait (New limit cbf) ro = (New limit cbf, none) := by
  have h0 : ro ([] : List (T × Option E)) = [] := List.Perm.eq_nil (hro [])
  show waitDrain (joinAll (New limit cbf) (ro (New limit cbf).pending)) = _
  have hp : (New limit cbf : Group T E).pending = [] := rfl
  rw [hp, h0]
  rfl

/-- Witness for C8 at `limit = 3` with the identity scheduler. -/
theorem c8_wait_without_go_witness :
    Wait (New 3 (fun _ _ => none) : Group Nat Nat) id =
      (New 3 (fun _ _ => none), none) :=
  c8_wait_without_go 3 (fun _ _ => none) id (fun xs => List.Perm.refl xs)

/-- C1 (evidence of the code bug): in the concrete scenario — `limit = 2`,
five tasks with the ones at index 0 and 2 failing, first batch error
swallowed — the callback's second invocation receives a nil error (the
`sync.Once` guarding the error slot is never reset, so the batch-2 task
error is discarded), the second batch error is therefore not escalated,
task 4 is started (`calls` reaches 5), and `Wait` returns nil.  The claim
(and the repository's own test `TestBatchGroup_several_errors`) requires a
non-nil error at the second invocation, task 4 never started, and a non-nil
`Wait` result. -/
theorem c1_errOnce_not_reset :
    c1Run.1.log.map Prod.snd = [some 10, none, none] ∧
    c1Run.1.log.map Prod.fst = [[0, 1], [2, 3], [4]] ∧
    c1Run.2 = none ∧
    c1Run.1.calls = 5 := by
  refine ⟨?_, ?_, ?_, ?_⟩ <;> rfl

theorem go_boundary_log {g : Group T E} {ro t}
    (hlive : g.hasCbErr = false) (hb1 : 0 < g.calls) (hb2 : g.calls % g.limitc = 0)
    (hres : g.res = []) :
    (Go g ro t).log =
      g.log ++ [((ro g.pending).map Prod.fst, (joinAll g (ro g.pending)).err)] := by
  rw [Go, if_neg (by rw [hlive]; simp), if_pos ⟨hb1, hb2⟩]
  have hjres : (joinAll g (ro g.pending)).res = (ro g.pending).map Prod.fst := by
    rw [joinAll_res, hres, List.nil_append]
  cases hcv : (joinAll g (ro g.pending)).cb (joinAll g (ro g.pending)).res
      (joinAll g (ro g.pending)).err with
  | none =>
      simp only [goDrain, hcv]
      show (joinAll g (ro g.pending)).log ++
          [((joinAll g (ro g.pending)).res, (joinAll g (ro g.pending)).err)] = _
      rw [joinAll_log, hjres]
  | some e =>
      simp only [goDrain, hcv]
      show (joinAll g (ro g.pending)).log ++
          [((joinAll g (ro g.pending)).res, (joinAll g (ro g.pending)).err)] = _
      rw [joinAll_log, hjres]

theorem wait_log_nonempty {g : Group T E} {ro} (hres : g.res = [])
    (hne : ro g.pending ≠ []) :
    (Wait g ro).1.log =
      g.log ++ [((ro g.pending).map Prod.fst, (joinAll g (ro g.pending)).err)] := by
  rw [Wait]
  have hjres : (joinAll g (ro g.pending)).res = (ro g.pending).map Prod.fst := by
    rw [joinAll_res, hres, List.nil_append]
  have hlen : 0 < (joinAll g (ro g.pending)).res.length := by
    rw [hjres, List.length_map]
    exact List.length_pos.mpr hne
  rw [waitDrain, if_pos hlen]
  cases hcv : (joinAll g (ro g.pending)).cb (joinAll g (ro g.pending)).res
      (joinAll g (ro g.pending)).err with
  | none =>
      simp only [hcv]
      show (joinAll g (ro g.pending)).log ++
          [((joinAll g (ro g.pending)).res, (joinAll g (ro g.pending)).err)] = _
      rw [joinAll_log, hjres]
  | some e =>
      simp only [hcv]
      show (joinAll g (ro g.pending)).log ++
          [((joinAll g (ro g.pending)).res, (joinAll g (ro g.pending)).err)] = _
      rw [joinAll_log, hjres]

theorem hasCbErr_false_of_ne {g : Group T E} (h : ¬g.hasCbErr = true) :
    g.hasCbErr = false := by
  cases hc : g.hasCbErr
  · rfl
  · exact absurd hc h

/-- C2: when the callback invoked at a batch boundary inside `Go` returns a
non-nil error, the group latches the terminal state: the error is stored,
the submission counter is not incremented and no goroutine is launched by
this call, every later `Go` call is a strict no-op on the state, and `Wait`
returns exactly the callback's error value. -/
theorem c2_callback_error_terminal (limit : Int) (cbf : List T → Option E → Option E)
    (g : Group T E) (hg : GoReach limit cbf g) (ro) (hro : ValidRo ro) (t) (e : E)
    (hlive : g.hasCbErr = false) (hb1 : 0 < g.calls) (hb2 : g.calls % g.limitc = 0)
    (hcv : g.cb (joinAll g (ro g.pending)).res (joinAll g (ro g.pending)).err = some e) :
    (Go g ro t).hasCbErr = true ∧
    (Go g ro t).err = some e ∧
    (Go g ro t).calls = g.calls ∧
    (Go g ro t).pending = [] ∧
    (∀ sched ts i, runGos sched (Go g ro t) ts i = Go g ro t) ∧
    (∀ ro2, ValidRo ro2 → (Wait (Go g ro t) ro2).2 = some e) := by
  have hcv2 : (joinAll g (ro g.pending)).cb (joinAll g (ro g.pending)).res
      (joinAll g (ro g.pending)).err = some e := by
    rw [joinAll_cb]
    exact hcv
  have hgo : Go g ro t =
      { joinAll g (ro g.pending) with
        res := [],
        log := (joinAll g (ro g.pending)).log ++
          [((joinAll g (ro g.pending)).res, (joinAll g (ro g.pending)).err)],
        err := some e, hasCbErr := true } := by
    rw [Go, if_neg (by rw [hlive]; simp), if_pos ⟨hb1, hb2⟩]
    simp only [goDrain, hcv2]
  have hgf : (Go g ro t).hasCbErr = true := by rw [hgo]
  have hge : (Go g ro t).err = some e := by rw [hgo]
  have hgp : (Go g ro t).pending = [] := by
    rw [hgo]
    exact joinAll_pending g (ro g.pending)
  have hgr : (Go g ro t).res = [] := by rw [hgo]
  refine ⟨hgf, hge, ?_, hgp, ?_, ?_⟩
  · rw [hgo]
    exact joinAll_calls g (ro g.pending)
  · intro sched ts i
    exact runGos_noop hgf
  · intro ro2 hro2
    rw [wait_snd_of_empty hgp hgr hro2, hgf]
    simpa using hge

/-- Witness for C2: `limit = 1`, one successful task, an escalating
callback; the second `Go` call crosses the boundary and latches. -/
theorem c2_callback_error_terminal_witness :
    ((Go (New (1 : Int) (fun _ _ => some 42)) id ((5 : Nat), (none : Option Nat))).hasCbErr
        = false ∧
      0 < (Go (New (1 : Int) (fun _ _ => some 42)) id ((5 : Nat), (none : Option Nat))).calls) ∧
    ((Go (Go (New (1 : Int) (fun _ _ => some 42)) id ((5 : Nat), (none : Option Nat)))
        id (6, none)).hasCbErr = true ∧
      (Go (Go (New (1 : Int) (fun _ _ => some 42)) id ((5 : Nat), (none : Option Nat)))
        id (6, none)).err = some 42 ∧
      (Go (Go (New (1 : Int) (fun _ _ => some 42)) id ((5 : Nat), (none : Option Nat)))
        id (6, none)).calls =
        (Go (New (1 : Int) (fun _ _ => some 42)) id ((5 : Nat), (none : Option Nat))).calls ∧
      (Go (Go (New (1 : Int) (fun _ _ => some 42)) id ((5 : Nat), (none : Option Nat)))
        id (6, none)).pending = [] ∧
      (∀ sched ts i,
        runGos sched (Go (Go (New (1 : Int) (fun _ _ => some 42)) id
          ((5 : Nat), (none : Option Nat))) id (6, none)) ts i =
        Go (Go (New (1 : Int) (fun _ _ => some 42)) id ((5 : Nat), (none : Option Nat)))
          id (6, none)) ∧
      (∀ ro2, ValidRo ro2 →
        (Wait (Go (Go (New (1 : Int) (fun _ _ => some 42)) id
          ((5 : Nat), (none : Option Nat))) id (6, none)) ro2).2 = some 42)) := by
  refine ⟨⟨rfl, by decide⟩, ?_⟩
  exact c2_callback_error_terminal 1 (fun _ _ => some 42)
    (Go (New (1 : Int) (fun _ _ => some 42)) id ((5 : Nat), (none : Option Nat)))
    (GoReach.step GoReach.init (fun xs => List.Perm.refl xs)) id
    (fun xs => List.Perm.refl xs) (6, none) 42 rfl (by decide) (by decide) rfl

/-- C5: when a task of the current batch failed but the boundary callback
returns nil, the next batch proceeds normally: the error slot is cleared to
nil, the group stays live (`hasCbErr` remains false so no later call is
skipped), the submission counter advances, the new task is launched as the
sole member of the next window, and exactly one callback invocation was
recorded. -/
theorem c5_swallow_proceeds (limit : Int) (cbf : List T → Option E → Option E)
    (g : Group T E) (hg : GoReach limit cbf g) (ro) (hro : ValidRo ro) (t)
    (hlive : g.hasCbErr = false) (hb1 : 0 < g.calls) (hb2 : g.calls % g.limitc = 0)
    (hfail : ∃ t0 ∈ g.pending, t0.2.isSome = true)
    (hcv : g.cb (joinAll g (ro g.pending)).res (joinAll g (ro g.pending)).err = none) :
    (Go g ro t).err = none ∧
    (Go g ro t).hasCbErr = false ∧
    (Go g ro t).calls = g.calls + 1 ∧
    (Go g ro t).pending = [t] ∧
    (Go g ro t).log.length = g.log.length + 1 := by
  rw [Go, if_neg (by rw [hlive]; simp), if_pos ⟨hb1, hb2⟩]
  set gj := joinAll g (ro g.pending) with hgj
  have hjcb : gj.cb = g.cb := joinAll_cb g _
  have hcv2 : gj.cb gj.res gj.err = none := by
    rw [hjcb]
    exact hcv
  simp only [goDrain, hcv2]
  refine ⟨rfl, ?_, ?_, ?_, ?_⟩
  · show gj.hasCbErr = false
    rw [hgj, joinAll_hasCbErr]
    exact hlive
  · show gj.calls + 1 = g.calls + 1
    rw [hgj, joinAll_calls]
  · show gj.pending ++ [t] = [t]
    rw [hgj, joinAll_pending]
    rfl
  · show (gj.log ++ [(gj.res, gj.err)]).length = g.log.length + 1
    rw [List.length_append, hgj, joinAll_log]
    rfl

/-- Witness for C5: `limit = 2`, the first task of batch 1 fails, the
callback swallows; the third `Go` call crosses the boundary. -/
theorem c5_swallow_proceeds_witness :
    ((∃ t0 ∈ (Go (Go (New (2 : Int) (fun _ _ => none)) id ((0 : Nat), some (7 : Nat)))
        id (1, none)).pending, t0.2.isSome = true) ∧
      (Go (Go (New (2 : Int) (fun _ _ => none)) id ((0 : Nat), some (7 : Nat)))
        id (1, none)).hasCbErr = false) ∧
    ((Go (Go (Go (New (2 : Int) (fun _ _ => none)) id ((0 : Nat), some (7 : Nat)))
        id (1, none)) id (2, none)).err = none ∧
      (Go (Go (Go (New (2 : Int) (fun _ _ => none)) id ((0 : Nat), some (7 : Nat)))
        id (1, none)) id (2, none)).hasCbErr = false ∧
      (Go (Go (Go (New (2 : Int) (fun _ _ => none)) id ((0 : Nat), some (7 : Nat)))
        id (1, none)) id (2, none)).calls =
        (Go (Go (New (2 : Int) (fun _ _ => none)) id ((0 : Nat), some (7 : Nat)))
          id (1, none)).calls + 1 ∧
      (Go (Go (Go (New (2 : Int) (fun _ _ => none)) id ((0 : Nat), some (7 : Nat)))
        id (1, none)) id (2, none)).pending = [(2, none)] ∧
      (Go (Go (Go (New (2 : Int) (fun _ _ => none)) id ((0 : Nat), some (7 : Nat)))
        id (1, none)) id (2, none)).log.length =
        (Go (Go (New (2 : Int) (fun _ _ => none)) id ((0 : Nat), some (7 : Nat)))
          id (1, none)).log.length + 1) := by
  refine ⟨⟨⟨((0 : Nat), some (7 : Nat)), by decide, rfl⟩, rfl⟩, ?_⟩
  exact c5_swallow_proceeds 2 (fun _ _ => none)
    (Go (Go (New (2 : Int) (fun _ _ => none)) id ((0 : Nat), some (7 : Nat))) id (1, none))
    (GoReach.step (GoReach.step GoReach.init (fun xs => List.Perm.refl xs))
      (fun xs => List.Perm.refl xs))
    id (fun xs => List.Perm.refl xs) (2, none) rfl (by decide) (by decide)
    ⟨((0 : Nat), some (7 : Nat)), by decide, rfl⟩ rfl

/-- C6 (counterexample): one successful task, a callback that always
escalates; the first `Wait` returns the callback error `some 99`, but a
second `Wait` returns nil — not the same terminal error as the claim
requires — while (as the claim says) not re-invoking the callback. -/
theorem c6_second_wait_loses_error :
    c6Run1.2 = some 99 ∧ c6Run2.2 = none ∧ c6Run2.1.log = c6Run1.1.log :=
  ⟨rfl, rfl, rfl⟩

/-- C6 amended: a second `Wait` never re-invokes the callback.  When the
terminal flag was latched by a `Go`-boundary callback error, the second
`Wait` returns the same error as the first; but when the only callback
error arose inside the first `Wait` itself, the second `Wait` returns nil
(the `Wait` path does not latch the callback error). -/
theorem c6_amended_second_wait (limit : Int) (cbf : List T → Option E → Option E)
    (g : Group T E) (hg : GoReach limit cbf g) (ro1 ro2)
    (h1 : ValidRo ro1) (h2 : ValidRo ro2) :
    (Wait (Wait g ro1).1 ro2).1.log = (Wait g ro1).1.log ∧
    (g.hasCbErr = true → (Wait (Wait g ro1).1 ro2).2 = (Wait g ro1).2) ∧
    (g.hasCbErr = false → ((Wait g ro1).2).isSome = true →
      (Wait (Wait g ro1).1 ro2).2 = none) := by
  obtain ⟨hL, hres, hliveinv, hterm⟩ := ginv_reach hg
  have hp1 : (Wait g ro1).1.pending = [] := wait_fst_pending g ro1
  have hr1 : (Wait g ro1).1.res = [] := wait_fst_res g ro1
  have hf1 : (Wait g ro1).1.hasCbErr = g.hasCbErr := wait_fst_hasCbErr g ro1
  refine ⟨wait_fst_log_of_empty hp1 hr1 h2, ?_, ?_⟩
  · intro htrue
    obtain ⟨hpg, hei⟩ := hterm htrue
    have h0 : ro1 g.pending = [] := by
      rw [hpg]
      exact List.Perm.eq_nil (by simpa [hpg] using h1 g.pending)
    have hw1 : (Wait g ro1).2 = g.err := by
      rw [wait_snd_of_empty hpg hres h1, htrue]
      rfl
    have he1 : (Wait g ro1).1.err = g.err := by
      rw [wait_fst_err g ro1, h0, joinAll_err_none g (by intro x hx; simp at hx)]
    have hw2 : (Wait (Wait g ro1).1 ro2).2 = (Wait g ro1).1.err := by
      rw [wait_snd_of_empty hp1 hr1 h2, hf1, htrue]
      rfl
    rw [hw2, he1, hw1]
  · intro hfalse _
    rw [wait_snd_of_empty hp1 hr1 h2, hf1, hfalse]
    rfl

/-- Witness for the amended C6: terminal latched by a `Go`-boundary
callback error with `limit = 1`. -/
theorem c6_amended_second_wait_witness :
    GoReach 1 (fun _ _ => some 5)
      (Go (Go (New (1 : Int) (fun _ _ => some 5)) id ((1 : Nat), (none : Option Nat)))
        id (2, none)) ∧
    ((Wait (Wait (Go (Go (New (1 : Int) (fun _ _ => some 5)) id
        ((1 : Nat), (none : Option Nat))) id (2, none)) id).1 id).1.log =
      (Wait (Go (Go (New (1 : Int) (fun _ _ => some 5)) id
        ((1 : Nat), (none : Option Nat))) id (2, none)) id).1.log ∧
      ((Go (Go (New (1 : Int) (fun _ _ => some 5)) id ((1 : Nat), (none : Option Nat)))
          id (2, none)).hasCbErr = true →
        (Wait (Wait (Go (Go (New (1 : Int) (fun _ _ => some 5)) id
          ((1 : Nat), (none : Option Nat))) id (2, none)) id).1 id).2 =
        (Wait (Go (Go (New (1 : Int) (fun _ _ => some 5)) id
          ((1 : Nat), (none : Option Nat))) id (2, none)) id).2) ∧
      ((Go (Go (New (1 : Int) (fun _ _ => some 5)) id ((1 : Nat), (none : Option Nat)))
          id (2, none)).hasCbErr = false →
        ((Wait (Go (Go (New (1 : Int) (fun _ _ => some 5)) id
          ((1 : Nat), (none : Option Nat))) id (2, none)) id).2).isSome = true →
        (Wait (Wait (Go (Go (New (1 : Int) (fun _ _ => some 5)) id
          ((1 : Nat), (none : Option Nat))) id (2, none)) id).1 id).2 = none)) := by
  have hreach : GoReach 1 (fun _ _ => some 5)
      (Go (Go (New (1 : Int) (fun _ _ => some 5)) id ((1 : Nat), (none : Option Nat)))
        id (2, none)) :=
    GoReach.step (GoReach.step GoReach.init (fun xs => List.Perm.refl xs))
      (fun xs => List.Perm.refl xs)
  exact ⟨hreach, c6_amended_second_wait 1 (fun _ _ => some 5) _ hreach id id
    (fun xs => List.Perm.refl xs) (fun xs => List.Perm.refl xs)⟩

/-- Witness for C3 at `limit = 2` and three successful tasks. -/
theorem c3_success_batching_witness :
    (1 ≤ 2 ∧ (∀ t ∈ [((5 : Nat), (none : Option Nat)), (6, none), (7, none)], t.2 = none) ∧
      1 ≤ ([((5 : Nat), (none : Option Nat)), (6, none), (7, none)]).length) ∧
    ((Wait (runGos (fun _ => id) (New ((2 : Nat) : Int) (fun _ _ => none))
        [((5 : Nat), (none : Option Nat)), (6, none), (7, none)] 0) id).2 = none ∧
      (Wait (runGos (fun _ => id) (New ((2 : Nat) : Int) (fun _ _ => none))
        [((5 : Nat), (none : Option Nat)), (6, none), (7, none)] 0) id).1.log.length =
        (3 + 2 - 1) / 2 ∧
      (∀ p ∈ (Wait (runGos (fun _ => id) (New ((2 : Nat) : Int) (fun _ _ => none))
        [((5 : Nat), (none : Option Nat)), (6, none), (7, none)] 0) id).1.log,
          0 < p.1.length) ∧
      ((Wait (runGos (fun _ => id) (New ((2 : Nat) : Int) (fun _ _ => none))
        [((5 : Nat), (none : Option Nat)), (6, none), (7, none)] 0) id).1.log.map
          fun p => p.1.length) =
        List.replicate (3 / 2) 2 ++ (if 3 % 2 = 0 then [] else [3 % 2])) :=
  ⟨⟨by decide, by decide, by decide⟩,
    c3_success_batching 2 (by decide) (fun _ _ => none) (fun _ _ => rfl)
      [((5 : Nat), (none : Option Nat)), (6, none), (7, none)] (by decide) (by decide)
      (fun _ => id) (fun _ xs => List.Perm.refl xs) id (fun xs => List.Perm.refl xs)⟩

/-- C7: whenever a callback invocation happens — at a `Go` batch boundary or
at the final drain inside `Wait` — the delivered result sequence has length
between 1 and `limit`; a call that invokes no callback leaves the invocation
log unchanged, so the callback is never invoked with zero results. -/
theorem c7_batch_size_bounds (limit : Int) (cbf : List T → Option E → Option E)
    (g : Group T E) (hg : GoReach limit cbf g) (ro) (hro : ValidRo ro) (t) :
    ((Go g ro t).log = g.log ∨
      ∃ r e, (Go g ro t).log = g.log ++ [(r, e)] ∧ 0 < r.length ∧ r.length ≤ g.limitc) ∧
    ((Wait g ro).1.log = g.log ∨
      ∃ r e, (Wait g ro).1.log = g.log ++ [(r, e)] ∧ 0 < r.length ∧
        r.length ≤ g.limitc) := by
  obtain ⟨hL, hres, hlive, hterm⟩ := ginv_reach hg
  constructor
  · by_cases hf : g.hasCbErr = true
    · left
      rw [go_noop hf]
    · have hf2 : g.hasCbErr = false := hasCbErr_false_of_ne hf
      by_cases hb : 0 < g.calls ∧ g.calls % g.limitc = 0
      · right
        refine ⟨(ro g.pending).map Prod.fst, (joinAll g (ro g.pending)).err,
          go_boundary_log hf2 hb.1 hb.2 hres, ?_, ?_⟩
        · rw [List.length_map, (hro g.pending).length_eq, hlive hf2,
            wlen_boundary hL hb.1 hb.2]
          exact hL
        · rw [List.length_map, (hro g.pending).length_eq, hlive hf2,
            wlen_boundary hL hb.1 hb.2]
      · left
        rw [Go, if_neg (by rw [hf2]; simp), if_neg hb]
        rfl
  · by_cases hne : ro g.pending = []
    · left
      have hp : g.pending = [] :=
        List.Perm.eq_nil (by rw [← hne]; exact (hro g.pending).symm)
      exact wait_fst_log_of_empty hp hres hro
    · right
      refine ⟨(ro g.pending).map Prod.fst, (joinAll g (ro g.pending)).err,
        wait_log_nonempty hres hne, ?_, ?_⟩
      · rw [List.length_map]
        exact List.length_pos.mpr hne
      · rw [List.length_map, (hro g.pending).length_eq]
        by_cases hf : g.hasCbErr = true
        · rw [(hterm hf).1]
          simp
        · rw [hlive (hasCbErr_false_of_ne hf)]
          exact wlen_le hL _

/-- Witness for C7: `limit = 2`, two tasks pending, instantiated both for
the boundary-crossing third `Go` call and for `Wait`. -/
theorem c7_batch_size_bounds_witness :
    GoReach 2 (fun _ _ => none)
      (Go (Go (New (2 : Int) (fun _ _ => none)) id ((3 : Nat), (none : Option Nat)))
        id (4, none)) ∧
    (((Go (Go (Go (New (2 : Int) (fun _ _ => none)) id ((3 : Nat), (none : Option Nat)))
        id (4, none)) id (5, none)).log =
      (Go (Go (New (2 : Int) (fun _ _ => none)) id ((3 : Nat), (none : Option Nat)))
        id (4, none)).log ∨
      ∃ r e, (Go (Go (Go (New (2 : Int) (fun _ _ => none)) id
          ((3 : Nat), (none : Option Nat))) id (4, none)) id (5, none)).log =
        (Go (Go (New (2 : Int) (fun _ _ => none)) id ((3 : Nat), (none : Option Nat)))
          id (4, none)).log ++ [(r, e)] ∧ 0 < r.length ∧
        r.length ≤ (Go (Go (New (2 : Int) (fun _ _ => none)) id
          ((3 : Nat), (none : Option Nat))) id (4, none)).limitc) ∧
    ((Wait (Go (Go (New (2 : Int) (fun _ _ => none)) id ((3 : Nat), (none : Option Nat)))
        id (4, none)) id).1.log =
      (Go (Go (New (2 : Int) (fun _ _ => none)) id ((3 : Nat), (none : Option Nat)))
        id (4, none)).log ∨
      ∃ r e, (Wait (Go (Go (New (2 : Int) (fun _ _ => none)) id
          ((3 : Nat), (none : Option Nat))) id (4, none)) id).1.log =
        (Go (Go (New (2 : Int) (fun _ _ => none)) id ((3 : Nat), (none : Option Nat)))
          id (4, none)).log ++ [(r, e)] ∧ 0 < r.length ∧
        r.length ≤ (Go (Go (New (2 : Int) (fun _ _ => none)) id
          ((3 : Nat), (none : Option Nat))) id (4, none)).limitc)) := by
  have hreach : GoReach 2 (fun _ _ => none)
      (Go (Go (New (2 : Int) (fun _ _ => none)) id ((3 : Nat), (none : Option Nat)))
        id (4, none)) :=
    GoReach.step (GoReach.step GoReach.init (fun xs => List.Perm.refl xs))
      (fun xs => List.Perm.refl xs)
  have h := c7_batch_size_bounds 2 (fun _ _ => none) _ hreach id
    (fun xs => List.Perm.refl xs) (5, none)
  exact ⟨hreach, h.1, h.2⟩

/-- C4: the result sequence delivered to the callback — at a `Go` batch
boundary or at the final drain inside `Wait` — is, for every completion
order of the window's goroutines, a permutation of the values produced by
the tasks submitted in that window. -/
theorem c4_batch_multiset (limit : Int) (cbf : List T → Option E → Option E)
    (g : Group T E) (hg : GoReach limit cbf g) (ro) (hro : ValidRo ro) (t) :
    (g.hasCbErr = false → 0 < g.calls → g.calls % g.limitc = 0 →
      ∃ e, (Go g ro t).log = g.log ++ [((ro g.pending).map Prod.fst, e)] ∧
        List.Perm ((ro g.pending).map Prod.fst) (g.pending.map Prod.fst)) ∧
    (g.pending ≠ [] →
      ∃ e, (Wait g ro).1.log = g.log ++ [((ro g.pending).map Prod.fst, e)] ∧
        List.Perm ((ro g.pending).map Prod.fst) (g.pending.map Prod.fst)) := by
  obtain ⟨hL, hres, hlive, hterm⟩ := ginv_reach hg
  constructor
  · intro hf hb1 hb2
    exact ⟨(joinAll g (ro g.pending)).err, go_boundary_log hf hb1 hb2 hres,
      (hro g.pending).map Prod.fst⟩
  · intro hp
    have hne : ro g.pending ≠ [] := by
      intro hcon
      exact hp (List.Perm.eq_nil (by rw [← hcon]; exact (hro g.pending).symm))
    exact ⟨(joinAll g (ro g.pending)).err, wait_log_nonempty hres hne,
      (hro g.pending).map Prod.fst⟩

/-- Witness for C4: `limit = 2`, two pending tasks, both the `Go`-boundary
and the `Wait` delivery instantiated. -/
theorem c4_batch_multiset_witness :
    GoReach 2 (fun _ _ => none)
      (Go (Go (New (2 : Int) (fun _ _ => none)) id ((3 : Nat), (none : Option Nat)))
        id (4, none)) ∧
    (∃ e, (Go (Go (Go (New (2 : Int) (fun _ _ => none)) id
        ((3 : Nat), (none : Option Nat))) id (4, none)) id (5, none)).log =
      (Go (Go (New (2 : Int) (fun _ _ => none)) id ((3 : Nat), (none : Option Nat)))
        id (4, none)).log ++
        [((id (Go (Go (New (2 : Int) (fun _ _ => none)) id
          ((3 : Nat), (none : Option Nat))) id (4, none)).pending).map Prod.fst, e)] ∧
      List.Perm ((id (Go (Go (New (2 : Int) (fun _ _ => none)) id
          ((3 : Nat), (none : Option Nat))) id (4, none)).pending).map Prod.fst)
        ((Go (Go (New (2 : Int) (fun _ _ => none)) id ((3 : Nat), (none : Option Nat)))
          id (4, none)).pending.map Prod.fst)) ∧
    (∃ e, (Wait (Go (Go (New (2 : Int) (fun _ _ => none)) id
        ((3 : Nat), (none : Option Nat))) id (4, none)) id).1.log =
      (Go (Go (New (2 : Int) (fun _ _ => none)) id ((3 : Nat), (none : Option Nat)))
        id (4, none)).log ++
        [((id (Go (Go (New (2 : Int) (fun _ _ => none)) id
          ((3 : Nat), (none : Option Nat))) id (4, none)).pending).map Prod.fst, e)] ∧
      List.Perm ((id (Go (Go (New (2 : Int) (fun _ _ => none)) id
          ((3 : Nat), (none : Option Nat))) id (4, none)).pending).map Prod.fst)
        ((Go (Go (New (2 : Int) (fun _ _ => none)) id ((3 : Nat), (none : Option Nat)))
          id (4, none)).pending.map Prod.fst)) := by
  have hreach : GoReach 2 (fun _ _ => none)
      (Go (Go (New (2 : Int) (fun _ _ => none)) id ((3 : Nat), (none : Option Nat)))
        id (4, none)) :=
    GoReach.step (GoReach.step GoReach.init (fun xs => List.Perm.refl xs))
      (fun xs => List.Perm.refl xs)
  have h := c4_batch_multiset 2 (fun _ _ => none) _ hreach id
    (fun xs => List.Perm.refl xs) (5, none)
  exact ⟨hreach, h.1 rfl (by decide) (by decide), h.2 (by decide)⟩

/-- C9: the value component of a failing task is deposited into the result
buffer and delivered to the callback with its batch — at the next `Go`
boundary or at the `Wait` drain — exactly like a successful task's value. -/
theorem c9_failed_value_delivered (limit : Int) (cbf : List T → Option E → Option E)
    (g : Group T E) (hg : GoReach limit cbf g) (ro) (hro : ValidRo ro) (t)
    (t0 : T × Option E) (ht0 : t0 ∈ g.pending) (herr : t0.2.isSome = true) :
    (g.hasCbErr = false → 0 < g.calls → g.calls % g.limitc = 0 →
      ∃ r e, (Go g ro t).log = g.log ++ [(r, e)] ∧ t0.1 ∈ r) ∧
    (∃ r e, (Wait g ro).1.log = g.log ++ [(r, e)] ∧ t0.1 ∈ r) := by
  obtain ⟨hL, hres, hlive, hterm⟩ := ginv_reach hg
  have hmem : t0.1 ∈ (ro g.pending).map Prod.fst :=
    List.mem_map_of_mem _ ((hro g.pending).mem_iff.mpr ht0)
  have hne : ro g.pending ≠ [] := by
    intro hcon
    rw [hcon] at hmem
    simp at hmem
  exact ⟨fun hf hb1 hb2 => ⟨_, _, go_boundary_log hf hb1 hb2 hres, hmem⟩,
    ⟨_, _, wait_log_nonempty hres hne, hmem⟩⟩

/-- Witness for C9: the failing task `(0, some 7)` of the first window. -/
theorem c9_failed_value_delivered_witness :
    GoReach 2 (fun _ _ => none)
      (Go (Go (New (2 : Int) (fun _ _ => none)) id ((0 : Nat), some (7 : Nat)))
        id (1, none)) ∧
    (∃ r e, (Go (Go (Go (New (2 : Int) (fun _ _ => none)) id ((0 : Nat), some (7 : Nat)))
        id (1, none)) id (2, none)).log =
      (Go (Go (New (2 : Int) (fun _ _ => none)) id ((0 : Nat), some (7 : Nat)))
        id (1, none)).log ++ [(r, e)] ∧ (0 : Nat) ∈ r) ∧
    (∃ r e, (Wait (Go (Go (New (2 : Int) (fun _ _ => none)) id ((0 : Nat), some (7 : Nat)))
        id (1, none)) id).1.log =
      (Go (Go (New (2 : Int) (fun _ _ => none)) id ((0 : Nat), some (7 : Nat)))
        id (1, none)).log ++ [(r, e)] ∧ (0 : Nat) ∈ r) := by
  have hreach : GoReach 2 (fun _ _ => none)
      (Go (Go (New (2 : Int) (fun _ _ => none)) id ((0 : Nat), some (7 : Nat)))
        id (1, none)) :=
    GoReach.step (GoReach.step GoReach.init (fun xs => List.Perm.refl xs))
      (fun xs => List.Perm.refl xs)
  have h := c9_failed_value_delivered 2 (fun _ _ => none) _ hreach id
    (fun xs => List.Perm.refl xs) (2, none) ((0 : Nat), some (7 : Nat))
    (by decide) rfl
  exact ⟨hreach, h.1 rfl (by decide) (by decide), h.2⟩

/-- C10: in every reachable state the buffered results plus the goroutines
launched since the last drain fit within the channel capacity (the clamped
limit), and when any goroutine of the window is about to send — after any
prefix of any completion order has already sent — the buffer still has a
free slot, so no send ever blocks. -/
theorem c10_channel_capacity (limit : Int) (cbf : List T → Option E → Option E)
    (g : Group T E) (hg : GoReach limit cbf g)
    (order pfx : List (T × Option E)) (t0 : T × Option E) (sfx : List (T × Option E))
    (horder : List.Perm order g.pending) (hsplit : order = pfx ++ t0 :: sfx) :
    g.res.length + g.pending.length ≤ g.limitc ∧
    (pfx.foldl complete g).res.length < g.limitc := by
  obtain ⟨hL, hres, hlive, hterm⟩ := ginv_reach hg
  have hplen : g.pending.length ≤ g.limitc := by
    by_cases hf : g.hasCbErr = true
    · rw [(hterm hf).1]
      simp
    · rw [hlive (hasCbErr_false_of_ne hf)]
      exact wlen_le hL _
  have hlen1 : order.length = g.pending.length := horder.length_eq
  have hlen2 : order.length = pfx.length + sfx.length + 1 := by
    rw [hsplit]
    simp [List.length_append]
    omega
  have hfold : (pfx.foldl complete g).res.length = pfx.length := by
    rw [foldl_complete_res, hres, List.nil_append, List.length_map]
  constructor
  · rw [hres]
    simpa using hplen
  · rw [hfold]
    omega

/-- Witness for C10: `limit = 2`, two pending tasks, the first about to send
after an empty prefix. -/
theorem c10_channel_capacity_witness :
    GoReach 2 (fun _ _ => none)
      (Go (Go (New (2 : Int) (fun _ _ => none)) id ((3 : Nat), (none : Option Nat)))
        id (4, none)) ∧
    ((Go (Go (New (2 : Int) (fun _ _ => none)) id ((3 : Nat), (none : Option Nat)))
        id (4, none)).res.length +
      (Go (Go (New (2 : Int) (fun _ _ => none)) id ((3 : Nat), (none : Option Nat)))
        id (4, none)).pending.length ≤
      (Go (Go (New (2 : Int) (fun _ _ => none)) id ((3 : Nat), (none : Option Nat)))
        id (4, none)).limitc ∧
      (([] : List (Nat × Option Nat)).foldl complete
        (Go (Go (New (2 : Int) (fun _ _ => none)) id ((3 : Nat), (none : Option Nat)))
          id (4, none))).res.length <
      (Go (Go (New (2 : Int) (fun _ _ => none)) id ((3 : Nat), (none : Option Nat)))
        id (4, none)).limitc) := by
  have hreach : GoReach 2 (fun _ _ => none)
      (Go (Go (New (2 : Int) (fun _ _ => none)) id ((3 : Nat), (none : Option Nat)))
        id (4, none)) :=
    GoReach.step (GoReach.step GoReach.init (fun xs => List.Perm.refl xs))
      (fun xs => List.Perm.refl xs)
  exact ⟨hreach, c10_channel_capacity 2 (fun _ _ => none) _ hreach
    [((3 : Nat), (none : Option Nat)), (4, none)] [] ((3 : Nat), (none : Option Nat))
    [(4, none)] (List.Perm.refl _) rfl⟩

end Batch
